import Mathlib

/-!
# Verification of `rust-http` (thread pool + HTTP request parsing)

Shallow embedding of `src/lib.rs`: the `ThreadPool` / `Worker` / `Job`
machinery and the `Request` / `parse_request_line` HTTP parsing helpers.
Rust panics (`assert!`, `unwrap`) are modelled as `Except Panic` results;
`std::io::Error` as an explicit `IOError` structure; the mpsc channel and
the worker thread loops as a labelled transition system on an explicit
system state.
-/

namespace RustHttp

/-- Model of `std::io::ErrorKind` (only the kind the source uses). -/
inductive ErrorKind where
  | invalidData
  deriving DecidableEq, Repr

/-- Model of `std::io::Error` as built by `Error::new(kind, msg)`. -/
structure IOError where
  kind : ErrorKind
  msg : String
  deriving DecidableEq, Repr

/-- `str::split` with a `char` separator, on the underlying character
list: yields the (possibly empty) chunks between occurrences of `c`;
always at least one chunk. -/
def splitChar (c : Char) : List Char → List (List Char)
  | [] => [[]]
  | x :: rest =>
    if x = c then [] :: splitChar c rest
    else
      match splitChar c rest with
      | r :: rs => (x :: r) :: rs
      | [] => [[x]]

/-- Model of Rust `s.split(c)` for a string `s` and `char` pattern `c`. -/
def strSplitChar (c : Char) (s : String) : List String :=
  (splitChar c s.toList).map String.mk

/-- `str::split` with the two-character pattern `": "`: splits at each
leftmost non-overlapping occurrence of `':'` followed by `' '`. -/
def splitColonSpace : List Char → List (List Char)
  | [] => [[]]
  | ':' :: ' ' :: rest => [] :: splitColonSpace rest
  | x :: rest =>
    match splitColonSpace rest with
    | r :: rs => (x :: r) :: rs
    | [] => [[x]]

/-- Model of Rust `s.split(": ")`. -/
def strSplitColonSpace (s : String) : List String :=
  (splitColonSpace s.toList).map String.mk

/-- Embedding of `parse_request_line` (src/lib.rs lines 193–205):
splits the request line on `' '`, errors with `InvalidData` unless there
are exactly three parts, otherwise returns `(method, path, version)`. -/
def parse_request_line (request_line : String) :
    Except IOError (String × String × String) :=
  let parts := strSplitChar ' ' request_line
  if parts.length ≠ 3 then
    .error ⟨ErrorKind.invalidData, "invalid request line"⟩
  else
    .ok (parts[0]!, parts[1]!, parts[2]!)

/-- Model of `std::collections::HashMap<String, String>` as an association
list with insert-overwrites-existing-key semantics. -/
abbrev HeaderMap := List (String × String)

/-- `HashMap::insert`: if the key is present its value is replaced,
otherwise the pair is added. -/
def HeaderMap.insert (m : HeaderMap) (k v : String) : HeaderMap :=
  if m.any (fun p => p.1 == k) then
    m.map (fun p => if p.1 == k then (k, v) else p)
  else
    m ++ [(k, v)]

/-- `HashMap::get` (lookup). -/
def HeaderMap.get (m : HeaderMap) (k : String) : Option String :=
  (m.find? (fun p => p.1 == k)).map Prod.snd

/-- Embedding of `struct Request` (src/lib.rs lines 126–136). -/
structure Request where
  method : String
  path : String
  version : String
  headers : HeaderMap
  deriving DecidableEq, Repr

/-- The predicate of the `take_while` in `Request::new`: keep a line while
it read successfully and is non-empty. -/
def keepLine (line : Except IOError String) : Bool :=
  match line with
  | .ok l => !l.isEmpty
  | .error _ => false

/-- Body of the header `for` loop in `Request::new`: for each kept line,
`let line = line?` then split on `": "` and insert when there are exactly
two parts (otherwise the line is skipped). -/
def headerLoop (lines : List (Except IOError String)) (headers : HeaderMap) :
    Except IOError HeaderMap :=
  match lines with
  | [] => .ok headers
  | line :: rest =>
    match line with
    | .error e => .error e
    | .ok l =>
      let parts := strSplitColonSpace l
      if parts.length = 2 then
        headerLoop rest (headers.insert (parts[0]!) (parts[1]!))
      else
        headerLoop rest headers

/-- Embedding of `Request::new` (src/lib.rs lines 152–177).  The byte
stream is modelled by the list of results its `lines()` iterator yields:
`next()` on the empty list is the "empty stream" error; the first line is
parsed by `parse_request_line`; headers come from the lines kept by
`take_while keepLine`. -/
def Request.new (lines : List (Except IOError String)) : Except IOError Request :=
  match lines with
  | [] => .error ⟨ErrorKind.invalidData, "empty stream"⟩
  | first :: rest => do
    let request_line ← first
    let (method, path, version) ← parse_request_line request_line
    let headers ← headerLoop (rest.takeWhile keepLine) []
    .ok { method, path, version, headers }

/-! ## Thread pool data model -/

/-- Rust panics that the pool code can raise:
`assert!(size > 0)` in `ThreadPool::new`, `Option::unwrap` on `None`
(`self.sender.as_ref().unwrap()`), and `Result::unwrap` on `Err`
(`send(job).unwrap()`, `thread.join().unwrap()`). -/
inductive Panic where
  | assertFailed
  | unwrapNone
  | unwrapErr (msg : String)
  deriving DecidableEq, Repr

/-- The caller's `FnOnce() + Send + 'static` closure, abstracted by an
identifier (the pool never inspects the closure, only moves and calls it). -/
abbrev Closure := Nat

/-- `type Job = Box<dyn FnOnce() + Send + 'static>`: the boxed closure. -/
structure Job where
  closure : Closure
  deriving DecidableEq, Repr

/-- The shared state of the `mpsc::channel()`: the queue of sent jobs and
whether the (sole, `Arc<Mutex<_>>`-shared) receiving side is still alive. -/
structure Chan where
  queue : List Job
  receiverAlive : Bool
  deriving DecidableEq, Repr

/-- A spawned OS thread, identified by its id (`thread::spawn` hands back a
`JoinHandle` to a fresh thread). -/
structure ThreadHandle where
  tid : Nat
  deriving DecidableEq, Repr

/-- Embedding of `struct Worker` (src/lib.rs lines 84–87). -/
structure Worker where
  id : Nat
  thread : Option ThreadHandle
  deriving DecidableEq, Repr

/-- `Worker::new(id, receiver)` (src/lib.rs lines 92–118): spawns the
thread running the worker loop and stores its handle.  The spawned
thread's id is the worker's ordinal (threads are spawned in order from a
fresh counter, one per worker). -/
def Worker.new (id : Nat) : Worker :=
  { id := id, thread := some ⟨id⟩ }

/-- The pool's own sender handle for the channel. -/
structure SenderHandle where
  deriving DecidableEq, Repr

/-- Embedding of `struct ThreadPool` (src/lib.rs lines 9–12). -/
structure ThreadPool where
  workers : List Worker
  sender : Option SenderHandle
  deriving DecidableEq, Repr

/-- Embedding of `ThreadPool::new` (src/lib.rs lines 25–47):
`assert!(size > 0)`, create the channel, spawn workers `0..size`, store
them together with the single sender.  Returns the pool and the fresh
channel state (empty queue, receiver alive). -/
def ThreadPool.new (size : Nat) : Except Panic (ThreadPool × Chan) :=
  if size > 0 then
    let chan : Chan := { queue := [], receiverAlive := true }
    let workers := (List.range size).map Worker.new
    .ok ({ workers := workers, sender := some ⟨⟩ }, chan)
  else
    .error .assertFailed

/-- Embedding of `ThreadPool::execute` (src/lib.rs lines 52–61): box the
closure as a `Job` and `self.sender.as_ref().unwrap().send(job).unwrap()`.
`as_ref().unwrap()` panics when the sender was already taken by teardown;
`send` returns `Err` (and `.unwrap()` panics) exactly when the receiver is
gone.  On success the job is appended to the channel queue and nothing is
returned to the caller. -/
def ThreadPool.execute (pool : ThreadPool) (chan : Chan) (f : Closure) :
    Except Panic Chan :=
  let job : Job := ⟨f⟩
  match pool.sender with
  | none => .error .unwrapNone
  | some _ =>
    if chan.receiverAlive then
      .ok { chan with queue := chan.queue ++ [job] }
    else
      .error (.unwrapErr "send on closed channel")

/-! ## Teardown (`impl Drop for ThreadPool`) -/

/-- Observable teardown events: dropping the sender, the
`println!("Shutting down worker {}", id)`, and joining worker `id`'s
thread. -/
inductive Event where
  | dropSender
  | printlnShutdown (id : Nat)
  | join (id : Nat)
  deriving DecidableEq, Repr

/-- The worker-loop half of the `for` loop in `drop` (src/lib.rs lines
70–78): for each worker in vector order, print the shutdown message, take
its thread handle and `join().unwrap()` it.  `joinResult tid` is the
outcome of joining thread `tid` (Err when that thread panicked); an `Err`
makes `unwrap` panic, aborting the iteration.  Returns the events emitted
and the workers with their handles taken. -/
def dropWorkers (joinResult : Nat → Except String Unit) :
    List Worker → Except Panic (List Event × List Worker)
  | [] => .ok ([], [])
  | w :: rest =>
    match w.thread with
    | some t =>
      match joinResult t.tid with
      | .ok _ =>
        match dropWorkers joinResult rest with
        | .ok (evs, ws) =>
          .ok (Event.printlnShutdown w.id :: Event.join w.id :: evs,
               { w with thread := none } :: ws)
        | .error p => .error p
      | .error e => .error (.unwrapErr e)
    | none =>
      match dropWorkers joinResult rest with
      | .ok (evs, ws) => .ok (Event.printlnShutdown w.id :: evs, w :: ws)
      | .error p => .error p

/-- Embedding of `Drop::drop` (src/lib.rs lines 65–79): first
`drop(self.sender.take())` (close the channel), then join every worker in
vector order.  Returns the emitted event trace and the pool as teardown
leaves it; a failed join propagates as a panic. -/
def ThreadPool.dropPool (joinResult : Nat → Except String Unit)
    (pool : ThreadPool) : Except Panic (List Event × ThreadPool) :=
  match dropWorkers joinResult pool.workers with
  | .ok (evs, ws) => .ok (Event.dropSender :: evs, { workers := ws, sender := none })
  | .error p => .error p

/-! ## Transition system: channel plus worker loops

The mpsc channel and the `size` concurrently running worker loops
(src/lib.rs lines 94–111) are modelled as a labelled transition system.
Each worker is `idle` (blocked in `recv`), `running j` (invoking job `j`),
or `terminated` (its loop hit `Err(_) => break`).  The history components
`sent`, `log` and `done` record every `send`, every successful `recv`
(with the receiving worker's index) and every completed job invocation. -/

inductive WStatus where
  | idle
  | running (j : Job)
  | terminated
  deriving DecidableEq, Repr

/-- Jobs currently being executed by some worker. -/
def runningJobs : List WStatus → List Job
  | [] => []
  | .running j :: rest => j :: runningJobs rest
  | _ :: rest => runningJobs rest

/-- Number of workers blocked in `recv`. -/
def countIdle : List WStatus → Nat
  | [] => 0
  | .idle :: rest => countIdle rest + 1
  | _ :: rest => countIdle rest

/-- Every worker loop has exited. -/
def allTerminated (ws : List WStatus) : Prop :=
  ∀ st ∈ ws, st = .terminated

instance (ws : List WStatus) : Decidable (allTerminated ws) := by
  unfold allTerminated
  infer_instance

/-- Global state: the channel queue, whether the sender has been dropped,
the workers' statuses, and the event histories. -/
structure SysState where
  queue : List Job
  closed : Bool
  workers : List WStatus
  sent : List Job
  log : List (Nat × Job)
  done : List (Nat × Job)
  deriving DecidableEq, Repr

/-- After `ThreadPool::new(size)`: empty queue, channel open, `size`
workers all blocked in `recv`. -/
def SysState.init (size : Nat) : SysState :=
  { queue := [], closed := false, workers := List.replicate size .idle,
    sent := [], log := [], done := [] }

/-- One step of the system:
* `send` — `sender.send(job)` while the sender is alive appends to the queue;
* `close` — `drop(self.sender.take())` in teardown closes the channel;
* `recv` — an idle worker's `receiver.lock().unwrap().recv()` returns
  `Ok(job)`: under the mutex it removes the head of the queue, exactly one
  worker obtaining it;
* `finish` — a running worker's `job()` call returns and it loops back to
  `recv`;
* `terminate` — `recv` on a closed, empty channel returns `Err`, and the
  worker's loop `break`s. -/
inductive Step : SysState → SysState → Prop where
  | send (s : SysState) (j : Job) :
      s.closed = false →
      Step s { s with queue := s.queue ++ [j], sent := s.sent ++ [j] }
  | close (s : SysState) :
      s.closed = false →
      Step s { s with closed := true }
  | recv (s : SysState) (w : Nat) (j : Job) (rest : List Job) :
      s.workers[w]? = some .idle →
      s.queue = j :: rest →
      Step s { s with queue := rest, workers := s.workers.set w (.running j), log := s.log ++ [(w, j)] }
  | finish (s : SysState) (w : Nat) (j : Job) :
      s.workers[w]? = some (.running j) →
      Step s { s with workers := s.workers.set w .idle, done := s.done ++ [(w, j)] }
  | terminate (s : SysState) (w : Nat) :
      s.workers[w]? = some .idle →
      s.closed = true →
      s.queue = [] →
      Step s { s with workers := s.workers.set w .terminated }

/-- States reachable from a freshly constructed pool of `size` workers. -/
def Reachable (size : Nat) (s : SysState) : Prop :=
  Relation.ReflTransGen Step (SysState.init size) s

/-! ## Lock discipline of one worker-loop iteration

`let message = receiver.lock().unwrap().recv();` creates a `MutexGuard`
temporary whose lifetime, by Rust's temporary-lifetime rule, ends at the
semicolon of that `let` statement — before the `match message` runs. -/

/-- The error `recv()` returns once all senders are dropped. -/
inductive RecvError where
  | disconnected
  deriving DecidableEq, Repr

/-- Primitive events of one iteration of the worker loop body. -/
inductive LoopEvent where
  | lockAcquire
  | recvReturn
  | lockRelease
  | printlnGotJob (id : Nat)
  | jobRun (j : Job)
  | printlnDisconnected (id : Nat)
  | breakLoop
  deriving DecidableEq, Repr

/-- Events of one iteration of the loop in `Worker::new` (src/lib.rs lines
96–111), given what `recv()` returned: acquire the receiver mutex, return
from `recv`, drop the guard at the end of the `let` statement, then match
on the message — print and run the job on `Ok`, print and `break` on
`Err`. -/
def workerIterationEvents (id : Nat) (message : Except RecvError Job) :
    List LoopEvent :=
  [.lockAcquire, .recvReturn, .lockRelease] ++
  (match message with
   | .ok j => [.printlnGotJob id, .jobRun j]
   | .error _ => [.printlnDisconnected id, .breakLoop])

/-- Annotate each event with whether the receiver mutex is held while that
event executes (`lockAcquire` holds it, `lockRelease` gives it up). -/
def annotateHeld (held : Bool) : List LoopEvent → List (LoopEvent × Bool)
  | [] => []
  | e :: rest =>
    let held' := match e with
      | .lockAcquire => true
      | .lockRelease => false
      | _ => held
    (e, held') :: annotateHeld held' rest

/-! ### Theorems: construction, submission, parsing -/

/-- Claim C3: `ThreadPool::new(0)` hits `assert!(size > 0)` and panics;
`new` never returns a pool with zero workers. -/
theorem new_zero_panics :
    ThreadPool.new 0 = .error Panic.assertFailed ∧
    ∀ size pool chan, ThreadPool.new size = .ok (pool, chan) →
      0 < pool.workers.length := by
  refine ⟨rfl, ?_⟩
  intro size pool chan h
  unfold ThreadPool.new at h
  split at h
  · rename_i hpos
    simp only [Except.ok.injEq, Prod.mk.injEq] at h
    obtain ⟨hp, -⟩ := h
    subst hp
    simpa using hpos
  · exact Except.noConfusion h

/-- Witness for the claim C3 theorem at `size = 1`. -/
theorem new_zero_panics_witness :
    0 < (ThreadPool.mk [Worker.new 0] (some ⟨⟩)).workers.length :=
  new_zero_panics.2 1 (ThreadPool.mk [Worker.new 0] (some ⟨⟩))
    (Chan.mk [] true) rfl

/-- Claim C4: for every `size > 0`, `new` returns a pool owning exactly
`size` workers with ids `0, 1, ..., size-1`, each holding a handle to a
distinct freshly spawned thread, together with exactly one stored
sender. -/
theorem new_spawns_size_workers (size : Nat) (h : 0 < size) :
    ∃ pool chan, ThreadPool.new size = .ok (pool, chan) ∧
      pool.workers.length = size ∧
      pool.workers.map Worker.id = List.range size ∧
      (∀ w ∈ pool.workers, ∃ t, w.thread = some t) ∧
      (pool.workers.map Worker.thread).Nodup ∧
      pool.sender = some ⟨⟩ := by
  refine ⟨⟨(List.range size).map Worker.new, some ⟨⟩⟩, ⟨[], true⟩,
    ?_, by simp, ?_, ?_, ?_, rfl⟩
  · unfold ThreadPool.new
    rw [if_pos h]
  · simp [List.map_map]
    exact List.map_id _
  · intro w hw
    simp only [List.mem_map] at hw
    obtain ⟨i, -, rfl⟩ := hw
    exact ⟨⟨i⟩, rfl⟩
  · rw [List.map_map]
    refine List.Nodup.map ?_ (List.nodup_range size)
    intro a b hab
    simpa [Worker.new, Function.comp] using hab

/-- Witness for the claim C4 theorem at `size = 3`. -/
theorem new_spawns_size_workers_witness :
    ∃ pool chan, ThreadPool.new 3 = .ok (pool, chan) ∧
      pool.workers.length = 3 ∧
      pool.workers.map Worker.id = List.range 3 ∧
      (∀ w ∈ pool.workers, ∃ t, w.thread = some t) ∧
      (pool.workers.map Worker.thread).Nodup ∧
      pool.sender = some ⟨⟩ :=
  new_spawns_size_workers 3 (by decide)

/-- Claim C5: once teardown has taken the sender (`drop` leaves
`sender = none`, first conjunct shows teardown always does), `execute`
panics via `Option::unwrap` on `None`; it returns no `.ok` state, so the
job is neither queued nor silently dropped into the channel. -/
theorem execute_after_teardown_panics (pool : ThreadPool) (chan : Chan)
    (f : Closure) (h : pool.sender = none) :
    (∀ (jr : Nat → Except String Unit) (p p' : ThreadPool)
       (evs : List Event), ThreadPool.dropPool jr p = .ok (evs, p') →
         p'.sender = none) ∧
    ThreadPool.execute pool chan f = .error Panic.unwrapNone := by
  constructor
  · intro jr p p' evs hd
    unfold ThreadPool.dropPool at hd
    split at hd
    · simp only [Except.ok.injEq, Prod.mk.injEq] at hd
      obtain ⟨-, hp⟩ := hd
      rw [← hp]
    · exact Except.noConfusion hd
  · unfold ThreadPool.execute
    rw [h]

/-- Witness for the claim C5 theorem on a torn-down pool. -/
theorem execute_after_teardown_panics_witness :
    ThreadPool.execute (ThreadPool.mk [] none) (Chan.mk [] true) 0 =
      .error Panic.unwrapNone :=
  (execute_after_teardown_panics (ThreadPool.mk [] none)
    (Chan.mk [] true) 0 rfl).2

/-- Claim C8: on a live pool, `execute f` boxes the closure `f` as a
`Job`, appends it to the (unbounded) channel queue and returns at once
with nothing but the updated channel — no handle or result for the
caller. -/
theorem execute_enqueues_and_returns (pool : ThreadPool) (chan : Chan)
    (f : Closure) (hs : ∃ hdl, pool.sender = some hdl)
    (hr : chan.receiverAlive = true) :
    ThreadPool.execute pool chan f =
      .ok { chan with queue := chan.queue ++ [Job.mk f] } := by
  obtain ⟨hdl, hs⟩ := hs
  simp [ThreadPool.execute, hs, hr]

/-- Witness for the claim C8 theorem: enqueue closure `7` on a fresh
1-worker pool. -/
theorem execute_enqueues_and_returns_witness :
    ThreadPool.execute (ThreadPool.mk [Worker.new 0] (some ⟨⟩))
      (Chan.mk [] true) 7 = .ok (Chan.mk [Job.mk 7] true) :=
  execute_enqueues_and_returns (ThreadPool.mk [Worker.new 0] (some ⟨⟩))
    (Chan.mk [] true) 7 ⟨⟨⟩, rfl⟩ rfl

/-- Claim C9: `parse_request_line` returns `Ok (method, path, version)` —
the three tokens in order, contents unvalidated — exactly when the line
splits on `' '` into exactly three parts, and an `InvalidData` error for
every other input. -/
theorem parse_request_line_three_parts (l : String) :
    (∀ m p v, strSplitChar ' ' l = [m, p, v] →
       parse_request_line l = .ok (m, p, v)) ∧
    ((strSplitChar ' ' l).length ≠ 3 →
       parse_request_line l =
         .error ⟨ErrorKind.invalidData, "invalid request line"⟩) ∧
    ((parse_request_line l).isOk ↔ (strSplitChar ' ' l).length = 3) := by
  refine ⟨?_, ?_, ?_⟩
  · intro m p v hsplit
    simp [parse_request_line, hsplit]
  · intro hlen
    simp [parse_request_line, hlen]
  · by_cases hl : (strSplitChar ' ' l).length = 3
    · simp [parse_request_line, hl, Except.isOk, Except.toBool]
    · simp [parse_request_line, hl, Except.isOk, Except.toBool]

/-- Witness for the claim C9 theorem on a well-formed request line. -/
theorem parse_request_line_three_parts_witness :
    parse_request_line "GET / HTTP/1.1" = .ok ("GET", "/", "HTTP/1.1") :=
  (parse_request_line_three_parts "GET / HTTP/1.1").1
    "GET" "/" "HTTP/1.1" (by decide)

/-! ### Theorems: teardown order (claim C2) -/

/-- The trace `drop` emits for a fresh pool of `size` workers when every
join succeeds: sender dropped first, then per worker `id` in ascending
order the shutdown message and the join. -/
def expectedDropTrace (size : Nat) : List Event :=
  Event.dropSender ::
    (List.range size).flatMap
      (fun i => [Event.printlnShutdown i, Event.join i])

theorem dropWorkers_all_ok (jr : Nat → Except String Unit)
    (ids : List Nat) (h : ∀ i ∈ ids, jr i = .ok ()) :
    dropWorkers jr (ids.map Worker.new) =
      .ok (ids.flatMap (fun i => [Event.printlnShutdown i, Event.join i]),
           ids.map (fun i => Worker.mk i none)) := by
  induction ids with
  | nil => rfl
  | cons a t ih =>
    have ha : jr a = .ok () := h a (List.mem_cons_self a t)
    have ht := ih (fun i hi => h i (List.mem_cons_of_mem a hi))
    simp [dropWorkers, Worker.new, ha, ht]

theorem dropWorkers_ok_iff (jr : Nat → Except String Unit)
    (ids : List Nat) :
    (∃ r, dropWorkers jr (ids.map Worker.new) = .ok r) ↔
      ∀ i ∈ ids, jr i = .ok () := by
  induction ids with
  | nil => simp [dropWorkers]
  | cons a t ih =>
    constructor
    · rintro ⟨r, hr⟩
      rcases hja : jr a with e | u
      · rw [List.map_cons] at hr
        simp [dropWorkers, Worker.new, hja] at hr
      · cases u
        intro i hi
        rcases List.mem_cons.mp hi with rfl | hit
        · exact hja
        · rcases hrec : dropWorkers jr (t.map Worker.new) with p | q
          · rw [List.map_cons] at hr
            simp [dropWorkers, Worker.new, hja, hrec] at hr
          · exact ih.mp ⟨q, hrec⟩ i hit
    · intro h
      exact ⟨_, dropWorkers_all_ok jr (a :: t) h⟩

theorem count_join_flatMap (ids : List Nat) (i : Nat) :
    (ids.flatMap
        (fun a => [Event.printlnShutdown a, Event.join a])).count
      (Event.join i) = ids.count i := by
  induction ids with
  | nil => rfl
  | cons a t ih =>
    rw [List.flatMap_cons]
    by_cases hai : a = i
    · subst hai
      simp [List.count_cons, List.count_append, ih]
    · simp only [List.count_append, ih, List.count_cons]
      have h1 : (Event.printlnShutdown a == Event.join i) = false := by
        simp
      have h2 : (Event.join a == Event.join i) = false := by
        simp [hai]
      have h3 : ((a : Nat) == i) = false := by simp [hai]
      simp [h1, h2, h3, List.count_nil]

/-- Claim C2: teardown first drops the sender and only then joins the
workers, in ascending id order `0..N-1`; every spawned thread is joined
exactly once (the trace has one `join i` per worker, and the handle is
taken, leaving `thread = none`); teardown returns normally iff every join
succeeded — a failed join panics instead of being swallowed. -/
theorem teardown_order_and_join (size : Nat) (h : 0 < size)
    (jr : Nat → Except String Unit) (pool : ThreadPool) (chan : Chan)
    (hnew : ThreadPool.new size = .ok (pool, chan)) :
    ((∀ i, i < size → jr i = .ok ()) →
       ThreadPool.dropPool jr pool =
         .ok (expectedDropTrace size,
              ThreadPool.mk ((List.range size).map (fun i => Worker.mk i none))
                none)) ∧
    ((∃ r, ThreadPool.dropPool jr pool = .ok r) ↔
       ∀ i, i < size → jr i = .ok ()) ∧
    (∀ i, i < size → (expectedDropTrace size).count (Event.join i) = 1) := by
  have hpool : pool = ThreadPool.mk ((List.range size).map Worker.new) (some ⟨⟩) := by
    unfold ThreadPool.new at hnew
    rw [if_pos h] at hnew
    simp only [Except.ok.injEq, Prod.mk.injEq] at hnew
    exact hnew.1.symm
  subst hpool
  refine ⟨?_, ?_, ?_⟩
  · intro hok
    have := dropWorkers_all_ok jr (List.range size)
      (fun i hi => hok i (List.mem_range.mp hi))
    unfold ThreadPool.dropPool
    rw [this]
    rfl
  · constructor
    · rintro ⟨r, hr⟩
      intro i hi
      unfold ThreadPool.dropPool at hr
      rcases hdw : dropWorkers jr ((List.range size).map Worker.new) with p | q
      · rw [hdw] at hr
        exact Except.noConfusion hr
      · exact (dropWorkers_ok_iff jr (List.range size)).mp ⟨q, hdw⟩ i
          (List.mem_range.mpr hi)
    · intro hok
      obtain ⟨q, hq⟩ := (dropWorkers_ok_iff jr (List.range size)).mpr
        (fun i hi => hok i (List.mem_range.mp hi))
      refine ⟨(Event.dropSender :: q.1, ThreadPool.mk q.2 none), ?_⟩
      unfold ThreadPool.dropPool
      rw [hq]
  · intro i hi
    unfold expectedDropTrace
    rw [List.count_cons]
    simp only [count_join_flatMap]
    have : (Event.dropSender == Event.join i) = false := by simp
    rw [this]
    simp [List.count_eq_one_of_mem (List.nodup_range size)
      (List.mem_range.mpr hi)]

/-- Witness for the claim C2 theorem: a 1-worker pool with a succeeding
join. -/
theorem teardown_order_and_join_witness :
    ThreadPool.dropPool (fun _ => .ok ())
      (ThreadPool.mk [Worker.new 0] (some ⟨⟩)) =
      .ok (expectedDropTrace 1, ThreadPool.mk [Worker.mk 0 none] none) :=
  (teardown_order_and_join 1 (by decide) (fun _ => .ok ())
    (ThreadPool.mk [Worker.new 0] (some ⟨⟩)) (Chan.mk [] true) rfl).1
    (fun _ _ => rfl)

/-! ### Theorems: header-map construction (claim C10) -/

theorem takeWhile_append_stop {α} (p : α → Bool) (l₁ l₂ : List α) (a : α)
    (h₁ : ∀ x ∈ l₁, p x = true) (ha : p a = false) :
    (l₁ ++ a :: l₂).takeWhile p = l₁ := by
  induction l₁ with
  | nil => simp [List.takeWhile, ha]
  | cons x t ih =>
    have hx : p x = true := h₁ x (List.mem_cons_self x t)
    simp only [List.cons_append, List.takeWhile, hx, List.append_eq]
    rw [ih (fun y hy => h₁ y (List.mem_cons_of_mem x hy))]

theorem takeWhile_eq_self_of_all {α} (p : α → Bool) (l : List α)
    (h : ∀ x ∈ l, p x = true) : l.takeWhile p = l := by
  induction l with
  | nil => rfl
  | cons x t ih =>
    have hx : p x = true := h x (List.mem_cons_self x t)
    simp only [List.takeWhile, hx]
    rw [ih (fun y hy => h y (List.mem_cons_of_mem x hy))]

theorem headerLoop_ok_of_kept (lines : List (Except IOError String))
    (h : ∀ l ∈ lines, keepLine l = true) :
    ∀ acc, ∃ hs, headerLoop lines acc = .ok hs := by
  induction lines with
  | nil => exact fun acc => ⟨acc, rfl⟩
  | cons line t ih =>
    intro acc
    rcases line with e | l
    · exact absurd (h (.error e) (List.mem_cons_self _ t)) (by simp [keepLine])
    · have ht := ih (fun x hx => h x (List.mem_cons_of_mem _ hx))
      by_cases hp : (strSplitColonSpace l).length = 2
      · obtain ⟨hs, hhs⟩ := ht (acc.insert ((strSplitColonSpace l)[0]!)
          ((strSplitColonSpace l)[1]!))
        exact ⟨hs, by simpa [headerLoop, hp] using hhs⟩
      · obtain ⟨hs, hhs⟩ := ht acc
        exact ⟨hs, by simpa [headerLoop, hp] using hhs⟩

theorem find_map_replace (t : List (String × String)) (k v : String)
    (h : t.any (fun p => p.1 == k) = true) :
    (t.map (fun p => if p.1 == k then (k, v) else p)).find?
      (fun p => p.1 == k) = some (k, v) := by
  induction t with
  | nil => simp at h
  | cons x t ih =>
    by_cases hx : (x.1 == k) = true
    · rw [List.map_cons, if_pos hx,
        List.find?_cons_of_pos (p := fun (q : String × String) => q.1 == k) _ (by simp)]
    · have hxf : (x.1 == k) = false := by
        rwa [Bool.not_eq_true] at hx
      have ht : t.any (fun p => p.1 == k) = true := by
        simpa [List.any_cons, hxf] using h
      rw [List.map_cons, if_neg hx,
        List.find?_cons_of_neg (p := fun (q : String × String) => q.1 == k) _ hx]
      exact ih ht

theorem find_append_new (t : List (String × String)) (k v : String)
    (h : t.any (fun p => p.1 == k) = false) :
    (t ++ [(k, v)]).find? (fun p => p.1 == k) = some (k, v) := by
  induction t with
  | nil => exact List.find?_cons_of_pos (p := fun (q : String × String) => q.1 == k) _ (by simp)
  | cons x t ih =>
    have hx : (x.1 == k) = false := by
      by_contra hc
      simp only [Bool.not_eq_false] at hc
      simp [List.any_cons, hc] at h
    have ht : t.any (fun p => p.1 == k) = false := by
      simpa [List.any_cons, hx] using h
    rw [List.cons_append,
      List.find?_cons_of_neg (p := fun (q : String × String) => q.1 == k) _ (by simp [hx])]
    exact ih ht

/-- `HashMap::insert` followed by lookup of the same key yields the value
just inserted (overwrite semantics). -/
theorem HeaderMap.get_insert_self (m : HeaderMap) (k v : String) :
    (m.insert k v).get k = some v := by
  unfold HeaderMap.insert HeaderMap.get
  by_cases hm : m.any (fun p => p.1 == k) = true
  · rw [if_pos hm, find_map_replace m k v hm]
    rfl
  · have hmf : m.any (fun p => p.1 == k) = false := by
      rwa [Bool.not_eq_true] at hm
    rw [if_neg hm, find_append_new m k v hmf]
    rfl

/-- `Request::new` on a non-empty stream, written out: read the request
line, parse it, then run the header loop on the kept lines. -/
theorem Request.new_cons (fl : Except IOError String)
    (rest : List (Except IOError String)) :
    Request.new (fl :: rest) = (do
      let request_line ← fl
      let d ← parse_request_line request_line
      let headers ← headerLoop (rest.takeWhile keepLine) []
      Except.ok (Request.mk d.1 d.2.1 d.2.2 headers)) := rfl

/-- Claim C10: `Request::new` builds the headers only from the lines
after the request line up to (not including) the first empty line or
first read error — later lines are irrelevant; a line that does not split
on `": "` into exactly two parts is silently skipped (no error); a
repeated key's later value overwrites the earlier one. -/
theorem request_headers_semantics :
    (∀ (rl : String) (kept junk : List (Except IOError String))
       (stop : Except IOError String),
       (∀ l ∈ kept, keepLine l = true) → keepLine stop = false →
       Request.new (.ok rl :: (kept ++ stop :: junk)) =
         Request.new (.ok rl :: kept)) ∧
    (∀ (l : String) (rest : List (Except IOError String)) (acc : HeaderMap),
       (strSplitColonSpace l).length ≠ 2 →
       headerLoop (.ok l :: rest) acc = headerLoop rest acc) ∧
    (∀ (m : HeaderMap) (k v1 v2 : String),
       (HeaderMap.get (HeaderMap.insert (HeaderMap.insert m k v1) k v2) k) =
         some v2) ∧
    (∀ (rl m p v : String) (rest : List (Except IOError String)),
       parse_request_line rl = .ok (m, p, v) →
       ∃ hs, headerLoop (rest.takeWhile keepLine) [] = .ok hs ∧
         Request.new (.ok rl :: rest) =
           .ok (Request.mk m p v hs)) := by
  refine ⟨?_, ?_, ?_, ?_⟩
  · intro rl kept junk stop hkept hstop
    rw [Request.new_cons, Request.new_cons,
      takeWhile_append_stop keepLine kept junk stop hkept hstop,
      takeWhile_eq_self_of_all keepLine kept hkept]
  · intro l rest acc hlen
    simp [headerLoop, hlen]
  · intro m k v1 v2
    exact HeaderMap.get_insert_self (m.insert k v1) k v2
  · intro rl m p v rest hparse
    obtain ⟨hs, hhs⟩ := headerLoop_ok_of_kept (rest.takeWhile keepLine)
      (fun l hl => List.mem_takeWhile_imp hl) []
    refine ⟨hs, hhs, ?_⟩
    rw [Request.new_cons]
    show (do
      let d ← parse_request_line rl
      let headers ← headerLoop (rest.takeWhile keepLine) []
      Except.ok (Request.mk d.1 d.2.1 d.2.2 headers)) =
        Except.ok (Request.mk m p v hs)
    rw [hparse, hhs]
    rfl

/-- Witness for the claim C10 theorem: a request with one header, a
malformed header line, an overwritten key, and junk after the blank
line. -/
theorem request_headers_semantics_witness :
    ∃ hs, headerLoop
        (([.ok "Host: a", .ok "Host: b", .ok "junkline"] :
            List (Except IOError String)).takeWhile keepLine) [] = .ok hs ∧
      Request.new (.ok "GET / HTTP/1.1" ::
          ([.ok "Host: a", .ok "Host: b", .ok "junkline"] :
            List (Except IOError String))) =
        .ok (Request.mk "GET" "/" "HTTP/1.1" hs) :=
  request_headers_semantics.2.2.2 "GET / HTTP/1.1" "GET" "/" "HTTP/1.1"
    [.ok "Host: a", .ok "Host: b", .ok "junkline"] rfl

/-! ### Theorems: lock discipline (claim C7) -/

/-- Claim C7: a worker does not hold the receiver mutex while running a
job — in every loop iteration the guard is released (`lockRelease`)
before the job closure is invoked, so at every `jobRun` event the lock is
not held, while the `recv` return (the dequeue) does happen under the
lock; and workers run jobs in parallel: a 2-worker pool reaches a state
with both workers simultaneously `running`, each having dequeued a
distinct job. -/
theorem lock_released_before_job :
    (∀ (id : Nat) (message : Except RecvError Job),
       ∀ p ∈ annotateHeld false (workerIterationEvents id message),
         (∀ j, p.1 = LoopEvent.jobRun j → p.2 = false) ∧
         (p.1 = LoopEvent.recvReturn → p.2 = true)) ∧
    (∃ s, Reachable 2 s ∧
       s.workers = [WStatus.running ⟨0⟩, WStatus.running ⟨1⟩]) := by
  constructor
  · intro id message p hp
    rcases message with e | j
    · simp only [workerIterationEvents, annotateHeld, List.cons_append,
        List.nil_append, List.mem_cons, List.not_mem_nil, or_false] at hp
      rcases hp with rfl | rfl | rfl | rfl | rfl <;> simp
    · simp only [workerIterationEvents, annotateHeld, List.cons_append,
        List.nil_append, List.mem_cons, List.not_mem_nil, or_false] at hp
      rcases hp with rfl | rfl | rfl | rfl | rfl <;> simp
  · refine ⟨SysState.mk [] false [WStatus.running ⟨0⟩, WStatus.running ⟨1⟩]
      [⟨0⟩, ⟨1⟩] [(0, ⟨0⟩), (1, ⟨1⟩)] [], ?_, rfl⟩
    exact Relation.ReflTransGen.tail (Relation.ReflTransGen.tail
      (Relation.ReflTransGen.tail
        (Relation.ReflTransGen.single (Step.send (SysState.init 2) ⟨0⟩ rfl))
        (Step.send _ ⟨1⟩ rfl))
      (Step.recv _ 0 ⟨0⟩ [⟨1⟩] (by decide) rfl))
      (Step.recv _ 1 ⟨1⟩ [] (by decide) rfl)

/-- Witness for the claim C7 theorem: in the iteration where worker 3
receives job 5, the `jobRun` event happens with the lock not held. -/
theorem lock_released_before_job_witness :
    (LoopEvent.jobRun ⟨5⟩, false) ∈
        annotateHeld false (workerIterationEvents 3 (.ok ⟨5⟩)) ∧
    (LoopEvent.jobRun ⟨5⟩, false).2 = false :=
  ⟨by decide,
   (lock_released_before_job.1 3 (.ok ⟨5⟩) (LoopEvent.jobRun ⟨5⟩, false)
     (by decide)).1 ⟨5⟩ rfl⟩

/-! ### Invariants of the transition system (claim C1) -/

theorem getElem?_set_same {α : Type} (ws : List α) (w : Nat) (a b : α)
    (h : ws[w]? = some a) : (ws.set w b)[w]? = some b := by
  induction ws generalizing w with
  | nil => simp at h
  | cons x t ih =>
    cases w with
    | zero => simp
    | succ n =>
      simp only [List.getElem?_cons_succ] at h
      simpa [List.set_cons_succ, List.getElem?_cons_succ] using ih n h

theorem set_same_of_getElem? {α : Type} (ws : List α) (w : Nat) (a : α)
    (h : ws[w]? = some a) : ws.set w a = ws := by
  induction ws generalizing w with
  | nil => rfl
  | cons x t ih =>
    cases w with
    | zero =>
      simp only [List.getElem?_cons_zero, Option.some.injEq] at h
      rw [List.set_cons_zero, h]
    | succ n =>
      simp only [List.getElem?_cons_succ] at h
      rw [List.set_cons_succ, ih n h]

theorem runningJobs_set_running (ws : List WStatus) (w : Nat) (j : Job)
    (h : ws[w]? = some .idle) :
    (runningJobs (ws.set w (.running j))).Perm (j :: runningJobs ws) := by
  induction ws generalizing w with
  | nil => simp at h
  | cons x t ih =>
    cases w with
    | zero =>
      simp only [List.getElem?_cons_zero, Option.some.injEq] at h
      subst h
      exact List.Perm.refl _
    | succ n =>
      simp only [List.getElem?_cons_succ] at h
      have hp := ih n h
      cases x with
      | idle => simpa [runningJobs] using hp
      | terminated => simpa [runningJobs] using hp
      | running j0 =>
        simp only [List.set_cons_succ, runningJobs]
        exact (hp.cons j0).trans (List.Perm.swap j j0 (runningJobs t))

theorem runningJobs_set_idle (ws : List WStatus) (w : Nat) (j : Job)
    (h : ws[w]? = some (.running j)) :
    (runningJobs ws).Perm (j :: runningJobs (ws.set w .idle)) := by
  induction ws generalizing w with
  | nil => simp at h
  | cons x t ih =>
    cases w with
    | zero =>
      simp only [List.getElem?_cons_zero, Option.some.injEq] at h
      subst h
      exact List.Perm.refl _
    | succ n =>
      simp only [List.getElem?_cons_succ] at h
      have hp := ih n h
      cases x with
      | idle => simpa [runningJobs] using hp
      | terminated => simpa [runningJobs] using hp
      | running j0 =>
        simp only [List.set_cons_succ, runningJobs]
        exact (hp.cons j0).trans (List.Perm.swap j j0 _)

theorem runningJobs_set_terminated (ws : List WStatus) (w : Nat)
    (h : ws[w]? = some .idle) :
    runningJobs (ws.set w .terminated) = runningJobs ws := by
  induction ws generalizing w with
  | nil => rfl
  | cons x t ih =>
    cases w with
    | zero =>
      simp only [List.getElem?_cons_zero, Option.some.injEq] at h
      subst h
      rfl
    | succ n =>
      simp only [List.getElem?_cons_succ] at h
      cases x with
      | idle => simpa [runningJobs] using ih n h
      | terminated => simpa [runningJobs] using ih n h
      | running j0 => simpa [runningJobs] using ih n h

theorem runningJobs_eq_nil_of_allTerminated (ws : List WStatus)
    (h : allTerminated ws) : runningJobs ws = [] := by
  induction ws with
  | nil => rfl
  | cons x t ih =>
    have hx := h x (List.mem_cons_self x t)
    subst hx
    exact ih (fun st hst => h st (List.mem_cons_of_mem _ hst))

theorem runningJobs_replicate_idle (n : Nat) :
    runningJobs (List.replicate n .idle) = [] := by
  induction n with
  | zero => rfl
  | succ m ih => simpa [List.replicate_succ, runningJobs] using ih

/-- The conservation invariant: every sent job is, in one piece, either
still queued, being run, or completed (first count equation); every
logged delivery is either being run or completed (second); and a
terminated worker means the channel is closed with an empty queue. -/
def Inv (size : Nat) (s : SysState) : Prop :=
  s.workers.length = size ∧
  (∀ j : Job, s.sent.count j =
     s.queue.count j + (runningJobs s.workers).count j +
       (s.done.map Prod.snd).count j) ∧
  (∀ j : Job, (s.log.map Prod.snd).count j =
     (runningJobs s.workers).count j + (s.done.map Prod.snd).count j) ∧
  ((∃ st ∈ s.workers, st = WStatus.terminated) →
     s.closed = true ∧ s.queue = [])

theorem inv_init (size : Nat) : Inv size (SysState.init size) := by
  refine ⟨by simp [SysState.init], ?_, ?_, ?_⟩
  · intro j
    simp [SysState.init, runningJobs_replicate_idle]
  · intro j
    simp [SysState.init, runningJobs_replicate_idle]
  · rintro ⟨st, hmem, rfl⟩
    have := (List.eq_of_mem_replicate hmem)
    exact absurd this (by simp)

theorem inv_step {size : Nat} {s s' : SysState} (hst : Step s s')
    (hinv : Inv size s) : Inv size s' := by
  obtain ⟨hlen, hcons, hlog, hterm⟩ := hinv
  cases hst with
  | send j hc =>
    refine ⟨hlen, ?_, hlog, ?_⟩
    · intro j'
      have h0 := hcons j'
      simp only [List.count_append]
      omega
    · intro hex
      have h2 := hterm hex
      rw [hc] at h2
      exact absurd h2.1 (by simp)
  | close hc =>
    refine ⟨hlen, hcons, hlog, ?_⟩
    intro hex
    exact ⟨rfl, (hterm hex).2⟩
  | recv w j rest hw hq =>
    have hperm := runningJobs_set_running s.workers w j hw
    refine ⟨by simpa using hlen, ?_, ?_, ?_⟩
    · intro j'
      have h0 := hcons j'
      rw [hq, List.count_cons] at h0
      dsimp only
      rw [hperm.count_eq j', List.count_cons]
      omega
    · intro j'
      have h0 := hlog j'
      rw [List.map_append, List.count_append, h0,
        hperm.count_eq j', List.count_cons]
      simp only [List.map_cons, List.map_nil, List.count_cons,
        List.count_nil]
      omega
    · rintro ⟨st, hmem, hstt⟩
      rcases List.mem_or_eq_of_mem_set hmem with hin | heq
      · have h2 := hterm ⟨st, hin, hstt⟩
        rw [hq] at h2
        exact absurd h2.2 (by simp)
      · rw [hstt] at heq
        exact WStatus.noConfusion heq
  | finish w j hw =>
    have hperm := runningJobs_set_idle s.workers w j hw
    refine ⟨by simpa using hlen, ?_, ?_, ?_⟩
    · intro j'
      have h0 := hcons j'
      rw [hperm.count_eq j', List.count_cons] at h0
      rw [List.map_append, List.count_append]
      simp only [List.map_cons, List.map_nil, List.count_cons,
        List.count_nil]
      omega
    · intro j'
      have h0 := hlog j'
      rw [hperm.count_eq j', List.count_cons] at h0
      rw [List.map_append, List.count_append]
      simp only [List.map_cons, List.map_nil, List.count_cons,
        List.count_nil]
      omega
    · rintro ⟨st, hmem, hstt⟩
      rcases List.mem_or_eq_of_mem_set hmem with hin | heq
      · exact hterm ⟨st, hin, hstt⟩
      · rw [hstt] at heq
        exact WStatus.noConfusion heq
  | terminate w hw hc hq =>
    have heq := runningJobs_set_terminated s.workers w hw
    refine ⟨by simpa using hlen, ?_, ?_, ?_⟩
    · intro j'
      rw [heq]
      exact hcons j'
    · intro j'
      rw [heq]
      exact hlog j'
    · intro _
      exact ⟨hc, hq⟩

theorem reachable_inv {size : Nat} {s : SysState}
    (hr : Reachable size s) : Inv size s := by
  induction hr with
  | refl => exact inv_init size
  | tail _ hstep ih => exact inv_step hstep ih

theorem count_map_two_mem {α β : Type} [DecidableEq α] [DecidableEq β]
    (f : α → β) (l : List α) (a b : α) (ha : a ∈ l) (hb : b ∈ l)
    (hne : a ≠ b) (hf : f a = f b) : 2 ≤ (l.map f).count (f a) := by
  induction l with
  | nil => simp at ha
  | cons x t ih =>
    rcases List.mem_cons.mp ha with rfl | hat
    · have hbt : b ∈ t := by
        rcases List.mem_cons.mp hb with rfl | h
        · exact absurd rfl hne
        · exact h
      have h1 : f a ∈ t.map f := by
        rw [hf]
        exact List.mem_map_of_mem f hbt
      have h2 : 1 ≤ (t.map f).count (f a) := List.count_pos_iff.mpr h1
      rw [List.map_cons, List.count_cons]
      simp only [beq_self_eq_true, if_true]
      omega
    · rcases List.mem_cons.mp hb with rfl | hbt
      · have h1 : f a ∈ t.map f := List.mem_map_of_mem f hat
        have h2 : 1 ≤ (t.map f).count (f a) := List.count_pos_iff.mpr h1
        have hbeq : (f b == f a) = true := by
          rw [hf]
          exact beq_self_eq_true _
        rw [List.map_cons, List.count_cons, if_pos hbeq]
        omega
      · have h3 : 2 ≤ (t.map f).count (f a) := ih hat hbt
        rw [List.map_cons, List.count_cons]
        omega

/-- Claim C1: each job submitted to a live pool is delivered to exactly
one worker and invoked exactly once — for any reachable state whose sent
jobs are distinct: no job has two delivery log entries, no two distinct
workers ever log the same job, no sent job is dropped while the channel
is open (it is queued, running or completed), and once all worker loops
have exited every sent job has been completed exactly once. -/
theorem jobs_delivered_exactly_once (size : Nat) (s : SysState)
    (hr : Reachable size s) (hnd : s.sent.Nodup) :
    (∀ j : Job, (s.log.map Prod.snd).count j ≤ 1) ∧
    (∀ w1 w2 j, (w1, j) ∈ s.log → (w2, j) ∈ s.log → w1 = w2) ∧
    (∀ j ∈ s.sent, j ∈ s.queue ∨ j ∈ runningJobs s.workers ∨
       j ∈ s.done.map Prod.snd) ∧
    (0 < size → allTerminated s.workers →
       ∀ j ∈ s.sent, (s.done.map Prod.snd).count j = 1) := by
  have hinv := reachable_inv hr
  obtain ⟨hlen, hcons, hlog, hterm⟩ := hinv
  have hle : ∀ j : Job, (s.log.map Prod.snd).count j ≤ 1 := by
    intro j
    have h1 := hcons j
    have h2 := hlog j
    have h3 := List.nodup_iff_count_le_one.mp hnd j
    omega
  refine ⟨hle, ?_, ?_, ?_⟩
  · intro w1 w2 j h1 h2
    by_contra hne
    have hpair : ((w1, j) : Nat × Job) ≠ (w2, j) := by
      intro hp
      exact hne (congrArg Prod.fst hp)
    have h2ge : 2 ≤ (s.log.map Prod.snd).count j :=
      count_map_two_mem Prod.snd s.log (w1, j) (w2, j) h1 h2 hpair rfl
    have := hle j
    omega
  · intro j hj
    have hpos : 0 < s.sent.count j := List.count_pos_iff.mpr hj
    have h1 := hcons j
    by_cases hq : 0 < s.queue.count j
    · exact Or.inl (List.count_pos_iff.mp hq)
    · by_cases hrun : 0 < (runningJobs s.workers).count j
      · exact Or.inr (Or.inl (List.count_pos_iff.mp hrun))
      · refine Or.inr (Or.inr (List.count_pos_iff.mp ?_))
        omega
  · intro hsz hat j hj
    have hrj : runningJobs s.workers = [] :=
      runningJobs_eq_nil_of_allTerminated _ hat
    have hne : s.workers ≠ [] := by
      intro h0
      rw [h0] at hlen
      simp at hlen
      omega
    obtain ⟨st, hmem⟩ := List.exists_mem_of_ne_nil _ hne
    have h1 := hcons j
    rw [(hterm ⟨st, hmem, hat st hmem⟩).2, hrj] at h1
    have h3 : s.sent.count j = 1 := List.count_eq_one_of_mem hnd hj
    simp only [List.count_nil] at h1
    omega

/-- Witness for the claim C1 theorem: a full send/close/recv/finish/
terminate cycle of one job through a 1-worker pool, after which the job
is completed exactly once. -/
theorem jobs_delivered_exactly_once_witness :
    (([((0 : Nat), Job.mk 0)].map Prod.snd).count (Job.mk 0) = 1) := by
  have hr : Reachable 1 (SysState.mk [] true [WStatus.terminated]
      [Job.mk 0] [(0, Job.mk 0)] [(0, Job.mk 0)]) :=
    Relation.ReflTransGen.tail (Relation.ReflTransGen.tail
      (Relation.ReflTransGen.tail (Relation.ReflTransGen.tail
        (Relation.ReflTransGen.single
          (Step.send (SysState.init 1) ⟨0⟩ rfl))
        (Step.close _ rfl))
        (Step.recv _ 0 ⟨0⟩ [] (by decide) rfl))
        (Step.finish _ 0 ⟨0⟩ (by decide)))
        (Step.terminate _ 0 (by decide) rfl rfl)
  exact (jobs_delivered_exactly_once 1 _ hr (by decide)).2.2.2
    (by decide) (by decide) (Job.mk 0) (by decide)

/-! ### Termination of teardown (claim C6) -/

/-- The worker statuses after every currently running job has finished:
`running` becomes `idle`, the rest stay. -/
def finishAllW : List WStatus → List WStatus
  | [] => []
  | .running _ :: rest => .idle :: finishAllW rest
  | st :: rest => st :: finishAllW rest

theorem finishAllW_of_no_running (ws : List WStatus)
    (h : runningJobs ws = []) : finishAllW ws = ws := by
  induction ws with
  | nil => rfl
  | cons x t ih =>
    cases x with
    | idle =>
      have h' : runningJobs t = [] := by simpa [runningJobs] using h
      simp [finishAllW, ih h']
    | running j => simp [runningJobs] at h
    | terminated =>
      have h' : runningJobs t = [] := by simpa [runningJobs] using h
      simp [finishAllW, ih h']

theorem exists_running_of_ne_nil (ws : List WStatus)
    (h : runningJobs ws ≠ []) :
    ∃ (w : Nat) (j : Job), ws[w]? = some (WStatus.running j) := by
  induction ws with
  | nil => exact absurd rfl h
  | cons x t ih =>
    cases x with
    | running j => exact ⟨0, j, by simp⟩
    | idle =>
      have h' : runningJobs t ≠ [] := by simpa [runningJobs] using h
      obtain ⟨w, j, hw⟩ := ih h'
      exact ⟨w + 1, j, by simpa using hw⟩
    | terminated =>
      have h' : runningJobs t ≠ [] := by simpa [runningJobs] using h
      obtain ⟨w, j, hw⟩ := ih h'
      exact ⟨w + 1, j, by simpa using hw⟩

theorem finishAllW_set_idle (ws : List WStatus) (w : Nat) (j : Job)
    (h : ws[w]? = some (WStatus.running j)) :
    finishAllW (ws.set w .idle) = finishAllW ws := by
  induction ws generalizing w with
  | nil => rfl
  | cons x t ih =>
    cases w with
    | zero =>
      simp only [List.getElem?_cons_zero, Option.some.injEq] at h
      subst h
      rfl
    | succ n =>
      simp only [List.getElem?_cons_succ] at h
      rw [List.set_cons_succ]
      cases x with
      | idle => simp [finishAllW, ih n h]
      | running j0 => simp [finishAllW, ih n h]
      | terminated => simp [finishAllW, ih n h]

theorem mem_finishAllW (ws : List WStatus) (st : WStatus)
    (h : st ∈ finishAllW ws) :
    st = WStatus.idle ∨ st = WStatus.terminated := by
  induction ws with
  | nil => simp [finishAllW] at h
  | cons x t ih =>
    cases x with
    | idle =>
      rcases List.mem_cons.mp h with h1 | h1
      · exact Or.inl h1
      · exact ih h1
    | running j =>
      rcases List.mem_cons.mp h with h1 | h1
      · exact Or.inl h1
      · exact ih h1
    | terminated =>
      rcases List.mem_cons.mp h with h1 | h1
      · exact Or.inr h1
      · exact ih h1

theorem allTerminated_of_finishAllW (ws : List WStatus)
    (h : allTerminated (finishAllW ws)) : allTerminated ws := by
  induction ws with
  | nil => intro st hmem; simp at hmem
  | cons x t ih =>
    cases x with
    | idle =>
      exact absurd (h WStatus.idle (List.mem_cons_self _ _)) (by simp)
    | running j =>
      exact absurd (h WStatus.idle (List.mem_cons_self _ _)) (by simp)
    | terminated =>
      have ht : allTerminated t :=
        ih (fun st hst => h st (List.mem_cons_of_mem _ hst))
      intro st hmem
      rcases List.mem_cons.mp hmem with h1 | h1
      · exact h1
      · exact ht st h1

theorem countIdle_pos_of_mem (ws : List WStatus)
    (h : WStatus.idle ∈ ws) : 0 < countIdle ws := by
  induction ws with
  | nil => simp at h
  | cons x t ih =>
    rcases List.mem_cons.mp h with h1 | h1
    · rw [← h1]
      simp [countIdle]
    · cases x with
      | idle => simp [countIdle]
      | running j => simpa [countIdle] using ih h1
      | terminated => simpa [countIdle] using ih h1

theorem exists_idle_of_countIdle_pos (ws : List WStatus)
    (h : 0 < countIdle ws) :
    ∃ (w : Nat), ws[w]? = some WStatus.idle := by
  induction ws with
  | nil => simp [countIdle] at h
  | cons x t ih =>
    cases x with
    | idle => exact ⟨0, by simp⟩
    | running j =>
      obtain ⟨w, hw⟩ := ih (by simpa [countIdle] using h)
      exact ⟨w + 1, by simpa using hw⟩
    | terminated =>
      obtain ⟨w, hw⟩ := ih (by simpa [countIdle] using h)
      exact ⟨w + 1, by simpa using hw⟩

theorem countIdle_set_terminated (ws : List WStatus) (w : Nat)
    (h : ws[w]? = some WStatus.idle) :
    countIdle (ws.set w .terminated) + 1 = countIdle ws := by
  induction ws generalizing w with
  | nil => simp at h
  | cons x t ih =>
    cases w with
    | zero =>
      simp only [List.getElem?_cons_zero, Option.some.injEq] at h
      subst h
      simp [countIdle]
    | succ n =>
      simp only [List.getElem?_cons_succ] at h
      rw [List.set_cons_succ]
      cases x with
      | idle => simpa [countIdle] using ih n h
      | running j => simpa [countIdle] using ih n h
      | terminated => simpa [countIdle] using ih n h

theorem finish_all (n : Nat) (s : SysState)
    (hn : (runningJobs s.workers).length = n) :
    ∃ s', Relation.ReflTransGen Step s s' ∧
      s'.workers = finishAllW s.workers ∧
      s'.queue = s.queue ∧ s'.closed = s.closed := by
  induction n generalizing s with
  | zero =>
    have h0 : runningJobs s.workers = [] :=
      List.eq_nil_of_length_eq_zero hn
    exact ⟨s, Relation.ReflTransGen.refl,
      (finishAllW_of_no_running _ h0).symm, rfl, rfl⟩
  | succ m ih =>
    have hne : runningJobs s.workers ≠ [] := by
      intro h0
      rw [h0] at hn
      simp at hn
    obtain ⟨w, j, hw⟩ := exists_running_of_ne_nil _ hne
    have hstep : Step s { s with workers := s.workers.set w .idle, done := s.done ++ [(w, j)] } :=
      Step.finish s w j hw
    have hlen2 : (runningJobs (s.workers.set w .idle)).length = m := by
      have hp := (runningJobs_set_idle s.workers w j hw).length_eq
      simp only [List.length_cons] at hp
      omega
    obtain ⟨s', hrtg, hws, hq, hcl⟩ :=
      ih { s with workers := s.workers.set w .idle, done := s.done ++ [(w, j)] } hlen2
    refine ⟨s', Relation.ReflTransGen.head hstep hrtg, ?_, hq, hcl⟩
    rw [hws]
    exact finishAllW_set_idle s.workers w j hw

theorem drain_queue (q : List Job) (s : SysState) (w : Nat)
    (hq : s.queue = q) (hw : s.workers[w]? = some WStatus.idle) :
    ∃ s', Relation.ReflTransGen Step s s' ∧ s'.queue = [] ∧
      s'.workers = s.workers ∧ s'.closed = s.closed := by
  induction q generalizing s with
  | nil => exact ⟨s, Relation.ReflTransGen.refl, hq, rfl, rfl⟩
  | cons j rest ih =>
    have hstep1 : Step s { s with queue := rest, workers := s.workers.set w (.running j), log := s.log ++ [(w, j)] } :=
      Step.recv s w j rest hw hq
    have hw1 : (s.workers.set w (WStatus.running j))[w]? =
        some (WStatus.running j) :=
      getElem?_set_same s.workers w WStatus.idle (WStatus.running j) hw
    have hstep2 : Step { s with queue := rest, workers := s.workers.set w (.running j), log := s.log ++ [(w, j)] } { s with queue := rest, workers := (s.workers.set w (.running j)).set w .idle, log := s.log ++ [(w, j)], done := s.done ++ [(w, j)] } :=
      Step.finish _ w j hw1
    have hws : (s.workers.set w (WStatus.running j)).set w .idle =
        s.workers := by
      rw [List.set_set]
      exact set_same_of_getElem? s.workers w WStatus.idle hw
    obtain ⟨s', hrtg, hq', hws', hcl'⟩ :=
      ih { s with queue := rest, workers := (s.workers.set w (.running j)).set w .idle, log := s.log ++ [(w, j)], done := s.done ++ [(w, j)] }
        rfl (by rw [hws]; exact hw)
    refine ⟨s', Relation.ReflTransGen.head hstep1
      (Relation.ReflTransGen.head hstep2 hrtg), hq', ?_, hcl'⟩
    rw [hws', hws]

theorem terminate_all (n : Nat) (s : SysState) (hc : s.closed = true)
    (hq : s.queue = [])
    (hst : ∀ st ∈ s.workers, st = WStatus.idle ∨ st = WStatus.terminated)
    (hn : countIdle s.workers = n) :
    ∃ s', Relation.ReflTransGen Step s s' ∧ allTerminated s'.workers ∧
      s'.queue = [] := by
  induction n generalizing s with
  | zero =>
    refine ⟨s, Relation.ReflTransGen.refl, ?_, hq⟩
    intro st hmem
    rcases hst st hmem with h | h
    · exfalso
      subst h
      have := countIdle_pos_of_mem s.workers hmem
      omega
    · exact h
  | succ m ih =>
    obtain ⟨w, hw⟩ := exists_idle_of_countIdle_pos s.workers (by omega)
    have hstep : Step s { s with workers := s.workers.set w .terminated } :=
      Step.terminate s w hw hc hq
    have hlen2 : countIdle (s.workers.set w .terminated) = m := by
      have := countIdle_set_terminated s.workers w hw
      omega
    have hst2 : ∀ st ∈ s.workers.set w WStatus.terminated,
        st = WStatus.idle ∨ st = WStatus.terminated := by
      intro st hmem
      rcases List.mem_or_eq_of_mem_set hmem with hin | heq
      · exact hst st hin
      · exact Or.inr heq
    obtain ⟨s', hrtg, hat2, hq2⟩ := ih
      { s with workers := s.workers.set w .terminated } hc hq hst2 hlen2
    exact ⟨s', Relation.ReflTransGen.head hstep hrtg, hat2, hq2⟩

/-- Claim C6: once the sender has been dropped (channel closed), the
system drains — from any reachable closed state of a nonempty pool, for
any mix of completed, currently running and queued jobs (including none),
there is an execution in which every running job finishes, every queued
job is received and completed, and every worker's `recv` returns the
disconnected signal so its loop exits (`allTerminated`): each worker
thread terminates and every `join` in teardown returns. -/
theorem teardown_terminates (size : Nat) (s : SysState) (hsz : 0 < size)
    (hr : Reachable size s) (hc : s.closed = true) :
    ∃ s', Relation.ReflTransGen Step s s' ∧ allTerminated s'.workers ∧
      s'.queue = [] := by
  obtain ⟨s1, hrtg1, hw1, hq1, hc1⟩ :=
    finish_all (runningJobs s.workers).length s rfl
  by_cases hterm : ∀ st ∈ s1.workers, st = WStatus.terminated
  · have hat : allTerminated s.workers := by
      apply allTerminated_of_finishAllW
      intro st hmem
      exact hterm st (by rw [hw1]; exact hmem)
    have hinv := reachable_inv hr
    have hne : s.workers ≠ [] := by
      intro h0
      have hl := hinv.1
      rw [h0] at hl
      simp at hl
      omega
    obtain ⟨st0, hmem0⟩ := List.exists_mem_of_ne_nil _ hne
    have hqe : s.queue = [] :=
      (hinv.2.2.2 ⟨st0, hmem0, hat st0 hmem0⟩).2
    refine ⟨s1, hrtg1, hterm, ?_⟩
    rw [hq1, hqe]
  · push_neg at hterm
    obtain ⟨st0, hmem0, hne0⟩ := hterm
    have hst0 : st0 = WStatus.idle := by
      rcases mem_finishAllW s.workers st0 (by rw [← hw1]; exact hmem0)
        with h | h
      · exact h
      · exact absurd h hne0
    obtain ⟨w, hwidx⟩ := List.getElem?_of_mem (hst0 ▸ hmem0)
    obtain ⟨s2, hrtg2, hq2, hw2, hc2⟩ := drain_queue s1.queue s1 w rfl hwidx
    have hstatuses : ∀ st ∈ s2.workers,
        st = WStatus.idle ∨ st = WStatus.terminated := by
      intro st hmem
      rw [hw2, hw1] at hmem
      exact mem_finishAllW s.workers st hmem
    obtain ⟨s3, hrtg3, hat3, hq3⟩ := terminate_all (countIdle s2.workers)
      s2 (by rw [hc2, hc1]; exact hc) hq2 hstatuses rfl
    exact ⟨s3, (hrtg1.trans hrtg2).trans hrtg3, hat3, hq3⟩

/-- Witness for the claim C6 theorem: a closed 1-worker pool with one
still-queued job drains to a fully terminated state. -/
theorem teardown_terminates_witness :
    ∃ s', Relation.ReflTransGen Step
        (SysState.mk [Job.mk 3] true [WStatus.idle] [Job.mk 3] [] []) s' ∧
      allTerminated s'.workers ∧ s'.queue = [] := by
  have hr : Reachable 1
      (SysState.mk [Job.mk 3] true [WStatus.idle] [Job.mk 3] [] []) :=
    Relation.ReflTransGen.tail (Relation.ReflTransGen.single
      (Step.send (SysState.init 1) ⟨3⟩ rfl))
      (Step.close _ rfl)
  exact teardown_terminates 1 _ (by decide) hr rfl

end RustHttp
